import Mathlib

/-!
Verification of the curl_to_kodi core (src/src/curl_to_kodi/cli.py, with the
sibling implementation src/src/curl_to_kodi.py) against its specification.

The Python functions are shallowly embedded as executable Lean definitions:
strings are Lean `String`s, Python dicts (insertion ordered) are association
lists, and fallible code returns `Except`.
-/

/-- Decidable equality on `Except`, for evaluating concrete calls of the
fallible composer. -/
instance {α β : Type} [DecidableEq α] [DecidableEq β] : DecidableEq (Except α β) :=
  fun a b =>
    match a, b with
    | Except.ok x, Except.ok y =>
      if h : x = y then isTrue (by rw [h]) else isFalse (by intro hc; cases hc; exact h rfl)
    | Except.error x, Except.error y =>
      if h : x = y then isTrue (by rw [h]) else isFalse (by intro hc; cases hc; exact h rfl)
    | Except.ok _, Except.error _ => isFalse (by intro hc; cases hc)
    | Except.error _, Except.ok _ => isFalse (by intro hc; cases hc)

namespace CurlToKodi

/-- Python whitespace (`str.isspace` / regex `\s` on `str`, which CPython
implements with the same `Py_UNICODE_ISSPACE` table). -/
def pySpace (c : Char) : Bool :=
  decide (c.toNat ∈ ([9, 10, 11, 12, 13, 28, 29, 30, 31, 32, 133, 160,
      0x1680, 0x2028, 0x2029, 0x202F, 0x205F, 0x3000] : List Nat) ∨
    (0x2000 ≤ c.toNat ∧ c.toNat ≤ 0x200A))

/-- UTF-8 encoding of a character (Python `str.encode('utf-8')`, per scalar value). -/
def utf8Bytes (c : Char) : List Nat :=
  let n := c.toNat
  if n < 0x80 then [n]
  else if n < 0x800 then [0xC0 + n / 64, 0x80 + n % 64]
  else if n < 0x10000 then [0xE0 + n / 4096, 0x80 + (n / 64) % 64, 0x80 + n % 64]
  else [0xF0 + n / 262144, 0x80 + (n / 4096) % 64, 0x80 + (n / 64) % 64, 0x80 + n % 64]

/-- Uppercase hexadecimal digit, as used by `urllib.parse.quote`. -/
def hexDigitU (n : Nat) : Char :=
  if n < 10 then Char.ofNat (48 + n) else Char.ofNat (55 + n)

/-- Bytes `urllib.parse.quote` leaves unescaped with its default `safe='/'`:
the always-safe set (ASCII letters, digits, `_.-~`) plus `/`. -/
def quoteSafeByte (b : Nat) : Bool :=
  decide ((65 ≤ b ∧ b ≤ 90) ∨ (97 ≤ b ∧ b ≤ 122) ∨ (48 ≤ b ∧ b ≤ 57) ∨
    b = 95 ∨ b = 46 ∨ b = 45 ∨ b = 126 ∨ b = 47)

/-- One byte of `urllib.parse.quote` output. -/
def quoteByte (b : Nat) : List Char :=
  if quoteSafeByte b then [Char.ofNat b] else ['%', hexDigitU (b / 16), hexDigitU (b % 16)]

/-- Python `urllib.parse.quote(s)` with its defaults (`safe='/'`, UTF-8). -/
def pyQuote (s : String) : String :=
  String.mk (((s.data.map utf8Bytes).flatten.map quoteByte).flatten)

/-- Python `sep.join(parts)`. -/
def joinSep (sep : String) : List String → String
  | [] => ""
  | [a] => a
  | a :: b :: t => a ++ sep ++ joinSep sep (b :: t)

/-- Embedding of `kodi_strm_content` from `cli.py`: compose the `.strm` descriptor
`url|k=v&k2=v2` with values encoded by `urllib.parse.quote`; raise
(`Except.error`) when the url is empty/absent. -/
def kodiStrmContent (url : String) (headers : List (String × String)) : Except String String :=
  if url = "" then Except.error "No URL found in curl command."
  else if headers.isEmpty then Except.ok url
  else Except.ok (url ++ "|" ++
    joinSep "&" (headers.map (fun kv => kv.1 ++ "=" ++ pyQuote kv.2)))

/-- Index of the last occurrence of `c` in `l` (Python `str.rfind`), if any. -/
def lastIdx (c : Char) (l : List Char) : Option Nat :=
  (l.enum.filter (fun p => p.2 = c)).getLast?.map (fun p => p.1)

/-- The base part of `os.path.splitext` (posixpath): drop the part from the
last `.` of the last path segment on, unless every character of the segment
before that dot is itself a dot. -/
def splitextBase (s : String) : String :=
  let l := s.data
  match lastIdx '.' l with
  | none => s
  | some d =>
    let start := match lastIdx '/' l with
      | some i => i + 1
      | none => 0
    if start ≤ d ∧ ((l.drop start).take (d - start)).any (fun c => c ≠ '.') then
      String.mk (l.take d)
    else s

/-- The character class of `cli.py`'s `re.sub(r'[\/*?:"<>|]', "_", base)`:
in a regex character class `\/` is just `/`, so the backslash itself is
*not* included. -/
def cliInvalidChar (c : Char) : Bool :=
  ['/', '*', '?', ':', '"', '<', '>', '|'].contains c

/-- The substitution step of `sanitize_filename` in `cli.py`. -/
def cleanChars (s : String) : String :=
  String.mk (s.data.map (fun c => if cliInvalidChar c then '_' else c))

/-- Embedding of `sanitize_filename` from `cli.py`: strip the extension, replace the
invalid characters by `_`, and fall back to `"output"` when empty. -/
def sanitizeFilename (name : String) : String :=
  let cleaned := cleanChars (splitextBase name)
  if cleaned = "" then "output" else cleaned

/-! ## The header/URL extractor (`parse_curl` and its regexes in `cli.py`) -/

/-- The single-quote character (ASCII 39). -/
def squote : Char := Char.ofNat 39

/-- The double-quote character (ASCII 34). -/
def dquote : Char := Char.ofNat 34

/-- The flag alternative `(?:-H|--header)` of `_HEADER_PATTERN`, case-insensitive
(`re.IGNORECASE`); returns the text after the flag.  `-H` is tried first; since
both alternatives start with `-` and differ at the second character, no
backtracking between them is possible. -/
def matchFlag (cs : List Char) : Option (List Char) :=
  match cs with
  | c0 :: c :: rest =>
    if c0 = '-' then
      if c = 'H' ∨ c = 'h' then some rest
      else if c = '-' then
        match rest with
        | c1 :: c2 :: c3 :: c4 :: c5 :: c6 :: r =>
          if (c1 = 'h' ∨ c1 = 'H') ∧ (c2 = 'e' ∨ c2 = 'E') ∧ (c3 = 'a' ∨ c3 = 'A') ∧
              (c4 = 'd' ∨ c4 = 'D') ∧ (c5 = 'e' ∨ c5 = 'E') ∧ (c6 = 'r' ∨ c6 = 'R') then
            some r
          else none
        | _ => none
      else none
    else none
  | _ => none

/-- One quoted alternative `q([^q]+)q` of the value part of `_HEADER_PATTERN`:
an opening quote, a non-empty run of non-quote characters (greedy, hence up to
the next quote), and the closing quote.  Returns the captured group and the
rest of the text. -/
def matchQuoted (q : Char) (cs : List Char) : Option (List Char × List Char) :=
  match cs with
  | [] => none
  | c :: rest =>
    if c = q then
      let g := rest.takeWhile (fun x => x ≠ q)
      if g.isEmpty then none
      else
        match rest.drop g.length with
        | _ :: r2 => some (g, r2)
        | [] => none
    else none

/-- The value part `(?:'([^']+)'|"([^"]+)"|([^\s]+))` of `_HEADER_PATTERN`:
single-quoted, double-quoted, else a maximal non-empty run of non-whitespace
(which, when a quoted alternative fails, starts at the quote itself). -/
def matchValue (cs : List Char) : Option (List Char × List Char) :=
  match matchQuoted squote cs with
  | some r => some r
  | none =>
    match matchQuoted dquote cs with
    | some r => some r
    | none =>
      let g := cs.takeWhile (fun c => ¬ pySpace c)
      if g.isEmpty then none else some (g, cs.drop g.length)

/-- The part of `_HEADER_PATTERN` after the `(?:^|\s)` boundary: flag, one or
more whitespace characters (greedy; shorter runs cannot help since no value
alternative may start with whitespace), then the value. -/
def tryHeaderMatch (cs : List Char) : Option (List Char × List Char) :=
  match matchFlag cs with
  | none => none
  | some afterFlag =>
    let ws := afterFlag.takeWhile pySpace
    if ws.isEmpty then none
    else matchValue (afterFlag.drop ws.length)

theorem length_takeWhile {p : Char → Bool} {l : List Char} :
    (l.takeWhile p).length ≤ l.length := by
  induction l with
  | nil => simp
  | cons c t ih =>
    simp only [List.takeWhile]
    split
    · simp only [List.length_cons]
      omega
    · simp

theorem matchQuoted_length {q : Char} {cs g r : List Char}
    (h : matchQuoted q cs = some (g, r)) : r.length < cs.length := by
  match cs with
  | [] => simp [matchQuoted] at h
  | c :: rest =>
    simp only [matchQuoted] at h
    split at h
    · split at h
      · exact absurd h (by simp)
      · split at h
        · next heq =>
          have hlen : (rest.drop (rest.takeWhile (fun x => x ≠ q)).length).length ≤ rest.length := by
            simp [List.length_drop]
          rw [heq] at hlen
          simp only [Option.some.injEq, Prod.mk.injEq] at h
          obtain ⟨-, h2⟩ := h
          subst h2
          simp only [List.length_cons] at hlen ⊢
          omega
        · exact absurd h (by simp)
    · exact absurd h (by simp)

theorem matchValue_length {cs g r : List Char}
    (h : matchValue cs = some (g, r)) : r.length < cs.length := by
  simp only [matchValue] at h
  split at h
  · next heq =>
    simp only [Option.some.injEq] at h
    subst h
    exact matchQuoted_length heq
  · split at h
    · next heq =>
      simp only [Option.some.injEq] at h
      subst h
      exact matchQuoted_length heq
    · split at h
      · exact absurd h (by simp)
      · next hne =>
        simp only [Option.some.injEq, Prod.mk.injEq] at h
        obtain ⟨h1, h2⟩ := h
        subst h2
        have : (cs.takeWhile (fun c => ¬ pySpace c)).length ≠ 0 := by
          simpa [List.isEmpty_iff, List.length_eq_zero] using hne
        have hle : (cs.takeWhile (fun c => ¬ pySpace c)).length ≤ cs.length :=
          length_takeWhile
        simp only [List.length_drop]
        omega

theorem matchFlag_length {cs r : List Char}
    (h : matchFlag cs = some r) : r.length < cs.length := by
  match cs with
  | [] => simp [matchFlag] at h
  | [c] => simp [matchFlag] at h
  | c0 :: c :: rest =>
    simp only [matchFlag] at h
    split at h
    · split at h
      · simp only [Option.some.injEq] at h
        subst h
        simp only [List.length_cons]
        omega
      · split at h
        · split at h
          · next c1 c2 c3 c4 c5 c6 r =>
            split at h
            · simp only [Option.some.injEq] at h
              subst h
              simp only [List.length_cons]
              omega
            · exact absurd h (by simp)
          · exact absurd h (by simp)
        · exact absurd h (by simp)
    · exact absurd h (by simp)

theorem tryHeaderMatch_length {cs g r : List Char}
    (h : tryHeaderMatch cs = some (g, r)) : r.length < cs.length := by
  simp only [tryHeaderMatch] at h
  split at h
  · exact absurd h (by simp)
  · next afterFlag heq =>
    split at h
    · exact absurd h (by simp)
    · have h1 : afterFlag.length < cs.length := matchFlag_length heq
      have h2 := matchValue_length h
      simp only [List.length_drop] at h2
      omega

/-- Model of `re.findall(_HEADER_PATTERN, text)`: Python's scan tries a match at every
position, left to right; a successful match is consumed whole (including the
value) and scanning resumes after it.  At position 0 the `(?:^|\s)` boundary
first tries the zero-width `^` and, failing that, consumes a whitespace
character; past position 0 only the whitespace alternative remains. -/
def scanHeaders (fuel : Nat) (cs : List Char) (atStart : Bool) : List (List Char) :=
  match fuel, cs with
  | _, [] => []
  | 0, _ :: _ => []
  | fuel + 1, c :: rest =>
    match (if atStart then tryHeaderMatch (c :: rest) else none) with
    | some (g, r) => g :: scanHeaders fuel r false
    | none =>
      match (if pySpace c then tryHeaderMatch rest else none) with
      | some (g, r) => g :: scanHeaders fuel r false
      | none => scanHeaders fuel rest false

/-- The fuel is only a structural-recursion bound: every step consumes at
least one character, so any fuel from the text length up computes the full
scan. -/
theorem scanHeaders_fuel {cs : List Char} {b : Bool} {fuel fuel' : Nat}
    (h : cs.length ≤ fuel) (h' : cs.length ≤ fuel') :
    scanHeaders fuel cs b = scanHeaders fuel' cs b := by
  suffices H : ∀ n (cs : List Char) (b : Bool) (fuel fuel' : Nat), cs.length ≤ n →
      cs.length ≤ fuel → cs.length ≤ fuel' →
      scanHeaders fuel cs b = scanHeaders fuel' cs b by
    exact H cs.length cs b fuel fuel' le_rfl h h'
  intro n
  induction n using Nat.strong_induction_on with
  | _ n ih =>
    intro cs b fuel fuel' hn hf hf'
    match cs with
    | [] =>
      match fuel, fuel' with
      | 0, 0 => rfl
      | 0, _ + 1 => rfl
      | _ + 1, 0 => rfl
      | _ + 1, _ + 1 => rfl
    | c :: rest =>
      match fuel, fuel' with
      | f + 1, f' + 1 =>
        simp only [List.length_cons] at hn hf hf'
        simp only [scanHeaders]
        match hm : (if b then tryHeaderMatch (c :: rest) else none) with
        | some (g, r) =>
          have hr : r.length < (c :: rest).length := by
            split at hm
            · exact tryHeaderMatch_length hm
            · exact absurd hm (by simp)
          simp only [List.length_cons] at hr
          show g :: scanHeaders f r false = g :: scanHeaders f' r false
          rw [ih (n - 1) (by omega) r false f f' (by omega) (by omega) (by omega)]
        | none =>
          match hm2 : (if pySpace c then tryHeaderMatch rest else none) with
          | some (g, r) =>
            have hr : r.length < rest.length := by
              split at hm2
              · exact tryHeaderMatch_length hm2
              · exact absurd hm2 (by simp)
            show g :: scanHeaders f r false = g :: scanHeaders f' r false
            rw [ih (n - 1) (by omega) r false f f' (by omega) (by omega) (by omega)]
          | none =>
            show scanHeaders f rest false = scanHeaders f' rest false
            rw [ih (n - 1) (by omega) rest false f f' (by omega) (by omega) (by omega)]

/-- All raw header values `_HEADER_PATTERN.findall` captures in a string. -/
def headerMatches (s : String) : List String :=
  (scanHeaders s.data.length s.data true).map String.mk

/-- Python `str.strip()`: remove leading and trailing whitespace. -/
def pyStrip (s : String) : String :=
  String.mk (((s.data.dropWhile pySpace).reverse.dropWhile pySpace).reverse)

/-- Python `str.lower()`, restricted to ASCII (header names in the allow-set
comparisons are ASCII). -/
def asciiLowerChar (c : Char) : Char :=
  if 65 ≤ c.toNat ∧ c.toNat ≤ 90 then Char.ofNat (c.toNat + 32) else c

/-- ASCII `str.lower()` on a string. -/
def pyLower (s : String) : String :=
  String.mk (s.data.map asciiLowerChar)

/-- Split at the first occurrence of `c` (Python `str.split(c, 1)`); `none`
when `c` does not occur. -/
def splitFirstChar (c : Char) (l : List Char) : List Char × Option (List Char) :=
  let pre := l.takeWhile (fun x => x ≠ c)
  match l.drop pre.length with
  | [] => (pre, none)
  | _ :: rest => (pre, some rest)

/-- The `_ALLOWED_HEADERS` constant of `cli.py` (a set used only through
membership of lowered names). -/
def defaultAllowedHeaders : List String :=
  ["cookie", "origin", "referer", "user-agent"]

/-- Assignment `headers[k] = v` on an insertion-ordered Python dict: an
existing key keeps its position and gets the new value, a new key is
appended. -/
def dictInsert (m : List (String × String)) (k v : String) : List (String × String) :=
  if m.any (fun p => p.1 = k) then m.map (fun p => if p.1 = k then (k, v) else p)
  else m ++ [(k, v)]

/-- The colon-split step of `parse_curl`: keep raw values containing `:`,
split at the first `:` and strip both parts. -/
def headerPairs (raws : List String) : List (String × String) :=
  raws.filterMap (fun raw =>
    match splitFirstChar ':' raw.data with
    | (_, none) => none
    | (k, some v) => some (pyStrip (String.mk k), pyStrip (String.mk v)))

/-- The filtering-and-insertion loop of `parse_curl` over the split pairs. -/
def buildHeaders (allow : List String) (includeAll : Bool)
    (pairs : List (String × String)) : List (String × String) :=
  pairs.foldl (fun m kv =>
    if includeAll || allow.contains (pyLower kv.1) then dictInsert m kv.1 kv.2 else m) []

/-- A non-whitespace, non-quote character (`[^\s'"]` in `_URL_PATTERN`). -/
def urlChar (c : Char) : Bool :=
  !(pySpace c) && c ≠ squote && c ≠ dquote

/-- The group `https?://[^\s'"]+` of `_URL_PATTERN` matched at the head of the
text (the greedy optional `s` causes no backtracking: when an `s` follows
`http` the no-`s` alternative would need `:` where the `s` stands). -/
def schemeRun (cs : List Char) : Option (List Char) :=
  match cs with
  | 'h' :: 't' :: 't' :: 'p' :: rest =>
    match rest with
    | 's' :: ':' :: '/' :: '/' :: r =>
      let run := r.takeWhile urlChar
      if run.isEmpty then none
      else some ('h' :: 't' :: 't' :: 'p' :: 's' :: ':' :: '/' :: '/' :: run)
    | ':' :: '/' :: '/' :: r =>
      let run := r.takeWhile urlChar
      if run.isEmpty then none
      else some ('h' :: 't' :: 't' :: 'p' :: ':' :: '/' :: '/' :: run)
    | _ => none
  | _ => none

/-- Model of `_URL_PATTERN.search`: group 1 of the leftmost match.  The optional
surrounding quotes of `_URL_PATTERN` never change group 1, so this is the
scheme-led run at the first position where one starts. -/
def firstUrlAux : List Char → Option (List Char)
  | [] => none
  | c :: rest =>
    match schemeRun (c :: rest) with
    | some u => some u
    | none => firstUrlAux rest

/-- The URL component of `parse_curl`. -/
def firstUrl (s : String) : Option String :=
  (firstUrlAux s.data).map String.mk

/-- The lowered allow-set `set(h.lower() for h in (allowed_headers or
_ALLOWED_HEADERS))`: a `none` or empty argument falls back to the default
(Python `or` on a falsy value). -/
def allowSet (allowedHeaders : Option (List String)) : List String :=
  (match allowedHeaders with
    | some l => if l.isEmpty then defaultAllowedHeaders else l
    | none => defaultAllowedHeaders).map pyLower

/-- Embedding of `parse_curl` from `cli.py`: first URL plus filtered headers. -/
def parseCurl (s : String) (allowedHeaders : Option (List String)) (includeAll : Bool) :
    Option String × List (String × String) :=
  (firstUrl s, buildHeaders (allowSet allowedHeaders) includeAll (headerPairs (headerMatches s)))

/-- Embedding of `construct_yt_dlp_args` from `cli.py`: the downloader argument vector. -/
def constructYtDlpArgs (url : String) (headers : List (String × String))
    (outputName : Option String) : List String :=
  ["yt-dlp"] ++ (headers.map (fun kv => ["--add-header", kv.1 ++ ": " ++ kv.2])).flatten ++
    [url] ++
    (match outputName with
     | some n => if n = "" then [] else ["-o", n ++ ".%(ext)s"]
     | none => [])

/-! ## The shell-safe joiners (`_sh_join`, `_bat_join`, `_ps1_join`) -/

/-- A character `shlex.quote` considers safe per its `_find_unsafe` regex
(ASCII mode): ASCII alphanumerics, underscore, and `@ % + = : , . slash -`. -/
def shSafeChar (c : Char) : Bool :=
  decide ((97 ≤ c.toNat ∧ c.toNat ≤ 122) ∨ (65 ≤ c.toNat ∧ c.toNat ≤ 90) ∨
    (48 ≤ c.toNat ∧ c.toNat ≤ 57) ∨
    c.toNat ∈ ([95, 64, 37, 43, 61, 58, 44, 46, 47, 45] : List Nat))

/-- The replacement step of `shlex.quote`, escaping each embedded quote. -/
def shQuoteInner (l : List Char) : List Char :=
  l.foldr (fun c acc =>
    (if c = squote then [squote, dquote, squote, dquote, squote] else [c]) ++ acc) []

/-- Model of `shlex.quote`: empty renders as two quotes, fully safe strings are left
bare, anything else is single-quoted with embedded quotes spliced as
`'"'"'`. -/
def shQuote (s : String) : String :=
  if s = "" then String.mk [squote, squote]
  else if s.data.all shSafeChar then s
  else String.mk ([squote] ++ shQuoteInner s.data ++ [squote])

/-- Embedding of `_sh_join` (`shlex.join`): quote each argument and join with spaces. -/
def shJoin (args : List String) : String :=
  joinSep " " (args.map shQuote)

/-- Doubling of an embedded quote character (`a.replace(q, q+q)`), used by the
batch and PowerShell joiners. -/
def dupChar (q : Char) (l : List Char) : List Char :=
  l.foldr (fun c acc => (if c = q then [q, q] else [c]) ++ acc) []

/-- The quoting-trigger set of `_bat_join`: whitespace or one of
`()%!^&<>|,;`. -/
def batMetaChar (c : Char) : Bool :=
  pySpace c || ['(', ')', '%', '!', '^', '&', '<', '>', '|', ',', ';'].contains c

/-- The quoting-trigger set of `_ps1_join` (`re.search(r"\s|[()!^&<>|,;]", a)`):
whitespace or one of `()!^&<>|,;` (no `%`). -/
def ps1MetaChar (c : Char) : Bool :=
  pySpace c || ['(', ')', '!', '^', '&', '<', '>', '|', ',', ';'].contains c

/-- The per-argument quoting shared by `_bat_join` (with `q` the double quote)
and `_ps1_join` (with `q` the single quote): empty renders as `qq`, an
argument containing a trigger character is wrapped in `q` with embedded `q`
doubled, anything else is left bare. -/
def wrapQuote (q : Char) (metaP : Char → Bool) (a : String) : String :=
  if a = "" then String.mk [q, q]
  else if a.data.any metaP then String.mk ([q] ++ dupChar q a.data ++ [q])
  else a

/-- Embedding of `_bat_join` from `cli.py`. -/
def batJoin (args : List String) : String :=
  joinSep " " (args.map (wrapQuote dquote batMetaChar))

/-- Embedding of `_ps1_join` from `cli.py`. -/
def ps1Join (args : List String) : String :=
  joinSep " " (args.map (wrapQuote squote ps1MetaChar))

/-! ## Dialect tokenizers.

Modelled from the spec: re-tokenization "under the target dialect's quoting
rules" (spec §4.5), which the repository itself does not implement.  For the
batch and PowerShell dialects those documented rules are: whitespace separates
arguments, a region delimited by the dialect's quote character `q` is literal,
and a doubled `q` inside such a region stands for a literal `q`.  POSIX gets
the standard single-quote/double-quote/backslash rules. -/

/-- Emit the pending token, if one was started. -/
def flushTok (cur : Option (List Char)) : List String :=
  match cur with
  | none => []
  | some t => [String.mk t]

/-- Append a character to the current token (starting one if needed). -/
def extendTok (cur : Option (List Char)) (c : Char) : Option (List Char) :=
  some (cur.getD [] ++ [c])

/-- State of the batch/PowerShell tokenizer: outside quotes, inside quotes,
or just past a quote character seen inside quotes (which is a literal quote
when doubled and the closing delimiter otherwise). -/
inductive QMode
  | out
  | inQ
  | sawQ
deriving DecidableEq

/-- Tokenizer for the batch/PowerShell dialects, parametrised by the quote
character `q`: whitespace splits outside quotes, `q` toggles quoting, and a
doubled `q` inside quotes yields a literal `q`. -/
def qTok (q : Char) (cs : List Char) (m : QMode) (cur : Option (List Char)) : List String :=
  match cs with
  | [] => flushTok cur
  | c :: rest =>
    match m with
    | .inQ =>
      if c = q then qTok q rest .sawQ cur
      else qTok q rest .inQ (extendTok cur c)
    | .sawQ =>
      if c = q then qTok q rest .inQ (extendTok cur q)
      else if pySpace c then
        match cur with
        | some t => String.mk t :: qTok q rest .out none
        | none => qTok q rest .out none
      else qTok q rest .out (extendTok cur c)
    | .out =>
      if c = q then qTok q rest .inQ (some (cur.getD []))
      else if pySpace c then
        match cur with
        | some t => String.mk t :: qTok q rest .out none
        | none => qTok q rest .out none
      else qTok q rest .out (extendTok cur c)

/-- Re-tokenization of a Windows batch command line. -/
def batTokenize (s : String) : List String :=
  qTok dquote s.data .out none

/-- Re-tokenization of a PowerShell command line. -/
def ps1Tokenize (s : String) : List String :=
  qTok squote s.data .out none

/-- POSIX shell tokenizer mode: plain text, single quotes, double quotes, or
just past an escaping backslash (unquoted, resp. inside double quotes). -/
inductive ShMode
  | norm
  | single
  | double
  | normEsc
  | doubleEsc
deriving DecidableEq

/-- POSIX shell field splitting with quote handling: unquoted whitespace
splits, single quotes are fully literal, double quotes are literal except
that a backslash escapes `"` `\` `$` and backquote, and an unquoted
backslash escapes the next character. -/
def shTok (cs : List Char) (mode : ShMode) (cur : Option (List Char)) : List String :=
  match cs with
  | [] =>
    match mode with
    | .doubleEsc => flushTok (extendTok cur '\\')
    | _ => flushTok cur
  | c :: rest =>
    match mode with
    | .single =>
      if c = squote then shTok rest .norm cur
      else shTok rest .single (extendTok cur c)
    | .double =>
      if c = dquote then shTok rest .norm cur
      else if c = '\\' then shTok rest .doubleEsc cur
      else shTok rest .double (extendTok cur c)
    | .doubleEsc =>
      if c = dquote ∨ c = '\\' ∨ c = '$' ∨ c = Char.ofNat 96 then
        shTok rest .double (extendTok cur c)
      else shTok rest .double (extendTok (extendTok cur '\\') c)
    | .normEsc => shTok rest .norm (extendTok cur c)
    | .norm =>
      if c = squote then shTok rest .single (some (cur.getD []))
      else if c = dquote then shTok rest .double (some (cur.getD []))
      else if c = '\\' then shTok rest .normEsc cur
      else if pySpace c then
        match cur with
        | some t => String.mk t :: shTok rest .norm none
        | none => shTok rest .norm none
      else shTok rest .norm (extendTok cur c)

/-- Re-tokenization of a POSIX shell command line. -/
def shTokenize (s : String) : List String :=
  shTok s.data .norm none

/-! ## Auxiliary notions used by the claims -/

/-- Association-list lookup by exact key (first hit; the builder keeps keys
unique, with an overwritten key retaining its original position). -/
def lookupKey (k : String) : List (String × String) → Option String
  | [] => none
  | kv :: rest => if kv.1 = k then some kv.2 else lookupKey k rest

/-- Split on every occurrence of `c` (Python `str.split(c)`). -/
def splitOnChar (c : Char) : List Char → List (List Char)
  | [] => [[]]
  | x :: rest =>
    if x = c then [] :: splitOnChar c rest
    else
      match splitOnChar c rest with
      | [] => [[x]]
      | p :: ps => (x :: p) :: ps

/-- Modelled from the spec (claim C10's parse-back procedure, which the
repository does not implement): split the descriptor at the first `|`, the
remainder on `&`, and each piece at its first `=`. -/
def parseDescriptor (d : String) : String × List (String × String) :=
  match splitFirstChar '|' d.data with
  | (u, none) => (String.mk u, [])
  | (u, some rest) =>
    (String.mk u, (splitOnChar '&' rest).map (fun piece =>
      match splitFirstChar '=' piece with
      | (k, none) => (String.mk k, "")
      | (k, some v) => (String.mk k, String.mk v)))

/-- The flag part of a header occurrence: `-H` or `--header`,
case-insensitively. -/
def FlagChars (f : List Char) : Prop :=
  (∃ c, f = ['-', c] ∧ (c = 'H' ∨ c = 'h')) ∨
  (∃ c1 c2 c3 c4 c5 c6, f = ['-', '-', c1, c2, c3, c4, c5, c6] ∧
    (c1 = 'h' ∨ c1 = 'H') ∧ (c2 = 'e' ∨ c2 = 'E') ∧ (c3 = 'a' ∨ c3 = 'A') ∧
    (c4 = 'd' ∨ c4 = 'D') ∧ (c5 = 'e' ∨ c5 = 'E') ∧ (c6 = 'r' ∨ c6 = 'R'))

/-- The text `t` starts with a header value whose captured group is `g`:
single-quoted, double-quoted, or an unquoted non-empty whitespace-free
token. -/
def ValueStart (t g : List Char) : Prop :=
  (∃ r, t = squote :: g ++ squote :: r ∧ g ≠ [] ∧ squote ∉ g) ∨
  (∃ r, t = dquote :: g ++ dquote :: r ∧ g ≠ [] ∧ dquote ∉ g) ∨
  (∃ r, t = g ++ r ∧ g ≠ [] ∧ ∀ c ∈ g, pySpace c = false)

/-- Somewhere in `s` — at the very start or right after a whitespace
character — a header flag occurs, followed by whitespace and a value whose
captured group is `g` (the declarative reading of one `_HEADER_PATTERN`
match). -/
def HeaderOccurrenceAt (s : List Char) (g : List Char) : Prop :=
  ∃ pre f w t, s = pre ++ f ++ w ++ t ∧
    (pre = [] ∨ ∃ pre' c, pre = pre' ++ [c] ∧ pySpace c = true) ∧
    FlagChars f ∧ w ≠ [] ∧ (∀ c ∈ w, pySpace c = true) ∧ ValueStart t g

/-! ## Helper lemmas about the sanitizer -/

theorem lastIdx_eq_none {c : Char} {l : List Char} (h : c ∉ l) : lastIdx c l = none := by
  unfold lastIdx
  have hf : l.enum.filter (fun p => p.2 = c) = [] := by
    rw [List.filter_eq_nil_iff]
    intro p hp
    simp only [decide_eq_true_eq]
    intro he
    exact h (he ▸ List.snd_mem_of_mem_enum hp)
  rw [hf]
  rfl

theorem splitextBase_of_noDot {s : String} (h : '.' ∉ s.data) : splitextBase s = s := by
  simp only [splitextBase, lastIdx_eq_none h]

theorem cleanChars_data (s : String) :
    (cleanChars s).data = s.data.map (fun c => if cliInvalidChar c then '_' else c) := rfl

theorem cleanChars_noDot {s : String} (h : '.' ∉ s.data) : '.' ∉ (cleanChars s).data := by
  rw [cleanChars_data]
  intro hm
  obtain ⟨c, hc, he⟩ := List.mem_map.mp hm
  by_cases hi : cliInvalidChar c = true
  · rw [if_pos hi] at he
    exact absurd he (by decide)
  · rw [if_neg hi] at he
    exact h (he ▸ hc)

theorem cleanChars_idem (s : String) : cleanChars (cleanChars s) = cleanChars s := by
  unfold cleanChars
  simp only [List.map_map]
  congr 1
  apply List.map_congr_left
  intro c _
  simp only [Function.comp_apply]
  by_cases hi : cliInvalidChar c = true
  · simp only [if_pos hi]
    simp
  · simp only [if_neg hi]

/-! ## The claims -/

/-- C1 (counterexample): with the chosen encoding (`urllib.parse.quote` with
its default `safe='/'`) the composed descriptor for the claim's input is not
the string the claim asserts, because `/` is left unescaped. -/
theorem c1_counterexample :
    kodiStrmContent "https://example.com/vid.mp4"
        [("User-Agent", "UA/1.0"), ("Referer", "https://ref")] ≠
      Except.ok "https://example.com/vid.mp4|User-Agent=UA%2F1.0&Referer=https%3A%2F%2Fref" := by
  decide

/-- C1 (amended): for the URL `https://example.com/vid.mp4` and the headers
`User-Agent: UA/1.0`, `Referer: https://ref`, the composer returns exactly
`https://example.com/vid.mp4|User-Agent=UA/1.0&Referer=https%3A//ref`: values
are percent-encoded with `:` escaped as `%3A` but `/` kept literal. -/
theorem c1_descriptor_exact :
    kodiStrmContent "https://example.com/vid.mp4"
        [("User-Agent", "UA/1.0"), ("Referer", "https://ref")] =
      Except.ok "https://example.com/vid.mp4|User-Agent=UA/1.0&Referer=https%3A//ref" := by
  decide

/-- C2 (counterexample): the sanitizer is not idempotent: stripping the
extension of `a.b.c` leaves `a.b`, which a second application shortens to
`a`. -/
theorem c2_counterexample :
    sanitizeFilename (sanitizeFilename "a.b.c") ≠ sanitizeFilename "a.b.c" := by
  decide

/-- C2 (amended): the sanitizer is idempotent on every input containing no
`.` (so that no extension-like suffix is stripped by the second
application). -/
theorem c2_idempotent_of_noDot (x : String) (h : '.' ∉ x.data) :
    sanitizeFilename (sanitizeFilename x) = sanitizeFilename x := by
  have hbase : splitextBase x = x := splitextBase_of_noDot h
  show sanitizeFilename (sanitizeFilename x) = sanitizeFilename x
  unfold sanitizeFilename
  rw [hbase]
  by_cases hc : cleanChars x = ""
  · rw [hc]
    decide
  · rw [if_neg hc]
    rw [splitextBase_of_noDot (cleanChars_noDot h), cleanChars_idem,
      if_neg hc]

/-- C2 witness: the amended idempotence applied at the concrete dot-free
input `a:b`. -/
theorem c2_witness :
    '.' ∉ ("a:b" : String).data ∧
      sanitizeFilename (sanitizeFilename "a:b") = sanitizeFilename "a:b" :=
  ⟨by decide, c2_idempotent_of_noDot "a:b" (by decide)⟩

/-- C3 (code bug): `cli.py`'s substitution class `[\/*?:"<>|]` omits the
backslash (`\/` inside a character class is just `/`), so a backslash
survives sanitization, contrary to the nine-character claim, the unused
`_INVALID_FILENAME_CHARS` constant of the same file, the sibling
implementation and its test; the rest of the claim behaves as stated, as the
claim's own example shows. -/
theorem c3_backslash_preserved :
    sanitizeFilename "a\\b" = "a\\b" ∧
      sanitizeFilename "bad:name*here?.mp4" = "bad_name_here_" :=
  ⟨by decide, by decide⟩

/-- C6: the composer raises exactly on the empty URL: for every URL and
header map, an error is returned if and only if the URL is empty. -/
theorem c6_raises_iff_empty_url (url : String) (headers : List (String × String)) :
    (∃ e, kodiStrmContent url headers = Except.error e) ↔ url = "" := by
  constructor
  · intro ⟨e, he⟩
    by_contra hne
    unfold kodiStrmContent at he
    rw [if_neg hne] at he
    split at he <;> cases he
  · intro h
    refine ⟨"No URL found in curl command.", ?_⟩
    unfold kodiStrmContent
    rw [if_pos h]

/-- C8: the sanitizer falls back to the literal `"output"` on the empty
string and, in general, whenever the replacement step leaves an empty
string. -/
theorem c8_empty_fallback :
    sanitizeFilename "" = "output" ∧
      ∀ x : String, cleanChars (splitextBase x) = "" → sanitizeFilename x = "output" := by
  refine ⟨by decide, ?_⟩
  intro x h
  show (if cleanChars (splitextBase x) = "" then "output" else cleanChars (splitextBase x)) =
    "output"
  rw [h]
  simp

/-- C8 witness: the fallback branch taken at the empty input. -/
theorem c8_witness :
    cleanChars (splitextBase "") = "" ∧ sanitizeFilename "" = "output" :=
  ⟨by decide, c8_empty_fallback.2 "" (by decide)⟩

/-! ## C9: the downloader-command composer -/

theorem headerTokens_length (headers : List (String × String)) :
    ((headers.map fun kv => ["--add-header", kv.1 ++ ": " ++ kv.2]).flatten).length =
      2 * headers.length := by
  induction headers with
  | nil => rfl
  | cons kv t ih =>
    simp only [List.map_cons, List.flatten_cons, List.length_append, ih, List.length_cons,
      List.length_nil]
    omega

/-- C9: with `output_name = "out"` the composed argument vector is the fixed
downloader literal, the per-header flag/value token pairs in insertion order,
the URL, and finally the output flag and the literal template
`out.%(ext)s` as the last two elements. -/
theorem c9_downloader_command (url : String) (headers : List (String × String)) :
    constructYtDlpArgs url headers (some "out") =
      ["yt-dlp"] ++ (headers.map fun kv => ["--add-header", kv.1 ++ ": " ++ kv.2]).flatten ++
        [url] ++ ["-o", "out.%(ext)s"] ∧
    (constructYtDlpArgs url headers (some "out")).drop (1 + 2 * headers.length) =
      [url, "-o", "out.%(ext)s"] := by
  have he : constructYtDlpArgs url headers (some "out") =
      ("yt-dlp" :: (headers.map fun kv => ["--add-header", kv.1 ++ ": " ++ kv.2]).flatten) ++
        [url, "-o", "out.%(ext)s"] := by
    simp [constructYtDlpArgs]
  constructor
  · rw [he]
    simp
  · rw [he]
    have hl : 1 + 2 * headers.length =
        ("yt-dlp" :: (headers.map fun kv => ["--add-header", kv.1 ++ ": " ++ kv.2]).flatten).length := by
      simp only [List.length_cons, headerTokens_length]
      omega
    rw [hl, List.drop_left]

/-! ## C4: duplicate header names -/

/-- C4 (counterexample): two header flags whose names differ only in case
yield two distinct entries (Python dict keys are compared exactly), not a
single case-insensitively merged one. -/
theorem c4_counterexample :
    (parseCurl "curl -H 'User-Agent: a' -H 'user-agent: b'" none false).2 =
        [("User-Agent", "a"), ("user-agent", "b")] ∧
      ((parseCurl "curl -H 'User-Agent: a' -H 'user-agent: b'" none false).2.filter
          (fun kv => pyLower kv.1 == "user-agent")).length = 2 :=
  ⟨by decide, by decide⟩

/-- The value of the last allow-passing pair whose name equals `k` exactly
(the claim-side reading of "last occurrence wins"). -/
def lastValue (incl : Bool) (allow : List String) (k : String) :
    List (String × String) → Option String
  | [] => none
  | kv :: t =>
    match lastValue incl allow k t with
    | some v => some v
    | none =>
      if (incl || allow.contains (pyLower kv.1)) ∧ kv.1 = k then some kv.2 else none

theorem lookupKey_map_overwrite {m : List (String × String)} {k : String} (v : String)
    (h : m.any (fun p => p.1 = k) = true) :
    lookupKey k (m.map (fun p => if p.1 = k then (k, v) else p)) = some v := by
  induction m with
  | nil => simp at h
  | cons p t ih =>
    simp only [List.map_cons]
    by_cases hp : p.1 = k
    · rw [if_pos hp]
      simp [lookupKey]
    · rw [if_neg hp]
      simp only [lookupKey, if_neg hp]
      apply ih
      simp only [List.any_cons, decide_eq_true_eq] at h
      rcases Bool.or_eq_true_iff.mp h with h1 | h1
      · exact absurd (of_decide_eq_true h1) hp
      · exact h1

theorem lookupKey_append_new {m : List (String × String)} {k : String} (v : String)
    (h : m.any (fun p => p.1 = k) = false) :
    lookupKey k (m ++ [(k, v)]) = some v := by
  induction m with
  | nil => simp [lookupKey]
  | cons p t ih =>
    simp only [List.any_cons, Bool.or_eq_false_iff] at h
    simp only [List.cons_append, lookupKey]
    rw [if_neg (by simpa using h.1)]
    exact ih h.2

theorem lookupKey_dictInsert_self (m : List (String × String)) (k v : String) :
    lookupKey k (dictInsert m k v) = some v := by
  unfold dictInsert
  by_cases h : m.any (fun p => p.1 = k) = true
  · rw [if_pos h]
    exact lookupKey_map_overwrite v h
  · rw [if_neg h]
    exact lookupKey_append_new v (Bool.not_eq_true _ ▸ h)

theorem lookupKey_map_other {k k' : String} (h : k' ≠ k) (v : String)
    (m : List (String × String)) :
    lookupKey k (m.map (fun p => if p.1 = k' then (k', v) else p)) = lookupKey k m := by
  induction m with
  | nil => rfl
  | cons p t ih =>
    simp only [List.map_cons, lookupKey]
    by_cases hp : p.1 = k'
    · rw [if_pos hp]
      have h1 : ¬((k', v).1 = k) := h
      rw [if_neg h1, if_neg (fun hc => h (hp ▸ hc))]
      exact ih
    · rw [if_neg hp]
      by_cases hk : p.1 = k
      · rw [if_pos hk, if_pos hk]
      · rw [if_neg hk, if_neg hk]
        exact ih

theorem lookupKey_append_other {k k' : String} (h : k' ≠ k) (v : String)
    (m : List (String × String)) :
    lookupKey k (m ++ [(k', v)]) = lookupKey k m := by
  induction m with
  | nil => simp [lookupKey, h]
  | cons p t ih =>
    simp only [List.cons_append, lookupKey]
    by_cases hk : p.1 = k
    · rw [if_pos hk, if_pos hk]
    · rw [if_neg hk, if_neg hk]
      exact ih

theorem lookupKey_dictInsert_other (m : List (String × String)) {k k' : String}
    (h : k' ≠ k) (v : String) :
    lookupKey k (dictInsert m k' v) = lookupKey k m := by
  unfold dictInsert
  split
  · exact lookupKey_map_other h v m
  · exact lookupKey_append_other h v m

theorem buildHeaders_lookup (incl : Bool) (allow : List String)
    (pairs : List (String × String)) (k : String) :
    lookupKey k (buildHeaders allow incl pairs) = lastValue incl allow k pairs := by
  suffices H : ∀ m : List (String × String),
      lookupKey k (pairs.foldl (fun m kv =>
          if incl || allow.contains (pyLower kv.1) then dictInsert m kv.1 kv.2 else m) m) =
        match lastValue incl allow k pairs with
        | some v => some v
        | none => lookupKey k m by
    have := H []
    unfold buildHeaders
    rw [this]
    cases lastValue incl allow k pairs <;> rfl
  induction pairs with
  | nil =>
    intro m
    rfl
  | cons kv t ih =>
    intro m
    simp only [List.foldl_cons, lastValue]
    rw [ih]
    cases hlv : lastValue incl allow k t with
    | some v => rfl
    | none =>
      show lookupKey k (if incl || allow.contains (pyLower kv.1) then dictInsert m kv.1 kv.2 else m) = _
      by_cases hkeep : (incl || allow.contains (pyLower kv.1)) = true
      · rw [if_pos hkeep]
        by_cases hk : kv.1 = k
        · rw [if_pos ⟨hkeep, hk⟩]
          subst hk
          exact lookupKey_dictInsert_self m kv.1 kv.2
        · rw [if_neg (fun hc => hk hc.2)]
          exact lookupKey_dictInsert_other m hk kv.2
      · rw [if_neg (Bool.not_eq_true _ ▸ hkeep)]
        rw [if_neg (fun hc => hkeep hc.1)]

/-- Keys of the mapped list are unchanged by an overwrite. -/
theorem keys_map_overwrite (m : List (String × String)) (k v : String) :
    (m.map (fun p => if p.1 = k then (k, v) else p)).map (fun p => p.1) =
      m.map (fun p => p.1) := by
  induction m with
  | nil => rfl
  | cons p t ih =>
    simp only [List.map_cons, ih]
    by_cases hp : p.1 = k
    · rw [if_pos hp]
      simp [hp]
    · rw [if_neg hp]

theorem keys_nodup_dictInsert {m : List (String × String)} (k v : String)
    (h : (m.map (fun p => p.1)).Nodup) :
    ((dictInsert m k v).map (fun p => p.1)).Nodup := by
  unfold dictInsert
  split
  · rwa [keys_map_overwrite]
  · next hany =>
    simp only [List.map_append, List.map_cons, List.map_nil]
    rw [List.nodup_append]
    refine ⟨h, List.nodup_singleton _, ?_⟩
    intro a ha hb
    simp only [List.mem_singleton] at hb
    subst hb
    obtain ⟨p, hp, hpk⟩ := List.mem_map.mp ha
    exact hany (List.any_eq_true.mpr ⟨p, hp, by simpa using hpk⟩)

theorem buildHeaders_keys_nodup (incl : Bool) (allow : List String)
    (pairs : List (String × String)) :
    ((buildHeaders allow incl pairs).map (fun p => p.1)).Nodup := by
  suffices H : ∀ m : List (String × String), (m.map (fun p => p.1)).Nodup →
      ((pairs.foldl (fun m kv =>
          if incl || allow.contains (pyLower kv.1) then dictInsert m kv.1 kv.2 else m) m).map
        (fun p => p.1)).Nodup from H [] (by simp)
  induction pairs with
  | nil => exact fun m hm => hm
  | cons kv t ih =>
    intro m hm
    simp only [List.foldl_cons]
    apply ih
    split
    · exact keys_nodup_dictInsert kv.1 kv.2 hm
    · exact hm

/-- C4 (amended): duplicate header names are merged only under exact
(case-sensitive) string equality: the extractor's map has pairwise distinct
keys, and looking up any name yields precisely the value of the last
processed allow-passing occurrence bearing that exact name (names differing
in case remain separate entries, as the counterexample shows). -/
theorem c4_exact_last_wins (s : String) (allowed : Option (List String))
    (incl : Bool) (k : String) :
    (((parseCurl s allowed incl).2).map (fun p => p.1)).Nodup ∧
    lookupKey k (parseCurl s allowed incl).2 =
      lastValue incl (allowSet allowed) k (headerPairs (headerMatches s)) :=
  ⟨buildHeaders_keys_nodup _ _ _, buildHeaders_lookup _ _ _ _⟩

/-! ## C10: parsing the descriptor back -/

theorem char_toNat_lt (c : Char) : c.toNat < 1114112 := by
  rcases c.valid with h | ⟨h1, h2⟩
  · simp only [Char.toNat]
    omega
  · simp only [Char.toNat]
    omega

theorem data_append (a b : String) : (a ++ b).data = a.data ++ b.data := rfl

theorem utf8Bytes_lt {c : Char} {b : Nat} (h : b ∈ utf8Bytes c) : b < 256 := by
  have hc := char_toNat_lt c
  simp only [utf8Bytes] at h
  split at h
  · rw [List.mem_singleton] at h
    omega
  · split at h
    · rw [List.mem_cons, List.mem_singleton] at h
      rcases h with h | h <;> omega
    · split at h
      · rw [List.mem_cons, List.mem_cons, List.mem_singleton] at h
        rcases h with h | h | h <;> omega
      · rw [List.mem_cons, List.mem_cons, List.mem_cons, List.mem_singleton] at h
        rcases h with h | h | h | h <;> omega

set_option maxRecDepth 4096 in
theorem quoteByte_all_good :
    ∀ b : Nat, b < 256 →
      ((quoteByte b).all (fun c => !(c == '&' || c == '=' || c == '|'))) = true := by
  decide

theorem pyQuote_no_sep {v : String} {c : Char} (h : c ∈ (pyQuote v).data) :
    c ≠ '&' ∧ c ≠ '=' ∧ c ≠ '|' := by
  simp only [pyQuote] at h
  obtain ⟨l, hl, hc⟩ := List.mem_flatten.mp h
  obtain ⟨b, hb, rfl⟩ := List.mem_map.mp hl
  obtain ⟨bs, hbs, hbb⟩ := List.mem_flatten.mp hb
  obtain ⟨ch, _, rfl⟩ := List.mem_map.mp hbs
  have hlt : b < 256 := utf8Bytes_lt hbb
  have := List.all_eq_true.mp (quoteByte_all_good b hlt) c hc
  simp only [Bool.not_eq_true', Bool.or_eq_false_iff, beq_eq_false_iff_ne] at this
  exact ⟨this.1.1, this.1.2, this.2⟩

theorem splitFirstChar_not_mem {c : Char} {l : List Char} (h : c ∉ l) :
    splitFirstChar c l = (l, none) := by
  have ht : l.takeWhile (fun x => x ≠ c) = l :=
    List.takeWhile_eq_self_iff.mpr (fun x hx => by
      simp only [ne_eq, decide_eq_true_eq]
      exact fun he => h (he ▸ hx))
  simp only [splitFirstChar, ht, List.drop_length]

theorem splitFirstChar_append {c : Char} {a : List Char} (h : c ∉ a) (b : List Char) :
    splitFirstChar c (a ++ c :: b) = (a, some b) := by
  have ht : (a ++ c :: b).takeWhile (fun x => x ≠ c) = a := by
    induction a with
    | nil => simp [List.takeWhile_cons]
    | cons x t ih =>
      simp only [List.mem_cons, not_or] at h
      simp only [List.cons_append, List.takeWhile_cons]
      rw [if_pos (by simp only [ne_eq, decide_eq_true_eq]; exact fun he => h.1 he.symm)]
      rw [ih h.2]
  simp only [splitFirstChar, ht]
  rw [List.drop_left]

/-- Character-level `c.join` of pieces, the shape of the descriptor's header
part. -/
def joinChar (c : Char) : List (List Char) → List Char
  | [] => []
  | [p] => p
  | p :: q :: t => p ++ c :: joinChar c (q :: t)

theorem joinSep_data (c : Char) (parts : List String) :
    (joinSep (String.mk [c]) parts).data = joinChar c (parts.map String.data) := by
  match parts with
  | [] => rfl
  | [a] => rfl
  | a :: b :: t =>
    have ih := joinSep_data c (b :: t)
    show (a ++ String.mk [c] ++ joinSep (String.mk [c]) (b :: t)).data = _
    rw [data_append, data_append, ih]
    show a.data ++ [c] ++ _ = _
    rw [List.append_assoc, List.singleton_append]
    rfl

theorem splitOnChar_single {c : Char} {p : List Char} (h : c ∉ p) :
    splitOnChar c p = [p] := by
  induction p with
  | nil => rfl
  | cons x t ih =>
    simp only [List.mem_cons, not_or] at h
    simp only [splitOnChar]
    rw [if_neg (fun he => h.1 he.symm), ih h.2]

theorem splitOnChar_cons_piece {c : Char} {p : List Char} (h : c ∉ p) (z : List Char) :
    splitOnChar c (p ++ c :: z) = p :: splitOnChar c z := by
  induction p with
  | nil =>
    show (if c = c then [] :: splitOnChar c z
      else match splitOnChar c z with
        | [] => [[c]]
        | p :: ps => (c :: p) :: ps) = [] :: splitOnChar c z
    rw [if_pos rfl]
  | cons x t ih =>
    simp only [List.mem_cons, not_or] at h
    show (if x = c then [] :: splitOnChar c (t ++ c :: z)
      else match splitOnChar c (t ++ c :: z) with
        | [] => [[x]]
        | p :: ps => (x :: p) :: ps) = (x :: t) :: splitOnChar c z
    rw [if_neg (fun he => h.1 he.symm), ih h.2]

theorem splitOnChar_joinChar {c : Char} {ps : List (List Char)}
    (h : ∀ p ∈ ps, c ∉ p) (hne : ps ≠ []) :
    splitOnChar c (joinChar c ps) = ps := by
  match ps with
  | [] => exact absurd rfl hne
  | [p] =>
    show splitOnChar c p = [p]
    exact splitOnChar_single (h p (by simp))
  | p :: q :: t =>
    show splitOnChar c (p ++ c :: joinChar c (q :: t)) = _
    rw [splitOnChar_cons_piece (h p (by simp))]
    rw [splitOnChar_joinChar (fun x hx => h x (List.mem_cons_of_mem p hx)) (by simp)]

/-- C10 (counterexample): with a `|` inside the URL the parse-back procedure
splits at the wrong place, so the recovery claimed for every non-empty URL
fails. -/
theorem c10_counterexample :
    kodiStrmContent "http://a|b" [("x", "y")] = Except.ok "http://a|b|x=y" ∧
      parseDescriptor "http://a|b|x=y" ≠ ("http://a|b", [("x", pyQuote "y")]) :=
  ⟨by decide, by decide⟩

/-- C10 (amended): for every non-empty URL containing no `|` and every header
map whose names avoid `|`, `&` and `=`, the encoded values contain no `&`,
`=` or `|` (the encoder escapes them along with whitespace), and splitting
the descriptor at the first `|`, then on `&`, then at the first `=` of each
piece recovers exactly the URL and the original names with their encoded
values. -/
theorem c10_descriptor_roundtrip (url : String) (headers : List (String × String))
    (hu : url ≠ "") (hpipe : '|' ∉ url.data)
    (hnames : ∀ kv ∈ headers, ∀ c ∈ (kv.1 : String).data, c ≠ '|' ∧ c ≠ '&' ∧ c ≠ '=') :
    (∀ kv ∈ headers, ∀ c ∈ (pyQuote kv.2).data, c ≠ '&' ∧ c ≠ '=' ∧ c ≠ '|') ∧
      ∃ d, kodiStrmContent url headers = Except.ok d ∧
        parseDescriptor d = (url, headers.map (fun kv => (kv.1, pyQuote kv.2))) := by
  refine ⟨fun kv _ c hc => pyQuote_no_sep hc, ?_⟩
  unfold kodiStrmContent
  rw [if_neg hu]
  cases headers with
  | nil =>
    refine ⟨url, rfl, ?_⟩
    unfold parseDescriptor
    rw [splitFirstChar_not_mem hpipe]
    rfl
  | cons kv0 t =>
    rw [if_neg (by simp)]
    refine ⟨_, rfl, ?_⟩
    unfold parseDescriptor
    have hd : (url ++ "|" ++
        joinSep "&" ((kv0 :: t).map (fun kv => kv.1 ++ "=" ++ pyQuote kv.2))).data =
        url.data ++ '|' ::
          (joinSep "&" ((kv0 :: t).map (fun kv => kv.1 ++ "=" ++ pyQuote kv.2))).data := by
      show url.data ++ "|".data ++ _ = _
      simp
    rw [hd, splitFirstChar_append hpipe]
    have hjoin : (joinSep "&" ((kv0 :: t).map (fun kv => kv.1 ++ "=" ++ pyQuote kv.2))).data =
        joinChar '&' (((kv0 :: t).map (fun kv => kv.1 ++ "=" ++ pyQuote kv.2)).map String.data) := by
      exact joinSep_data '&' _
    rw [hjoin]
    have hpieces : ∀ p ∈ ((kv0 :: t).map (fun kv => kv.1 ++ "=" ++ pyQuote kv.2)).map String.data,
        '&' ∉ p := by
      intro p hp
      obtain ⟨ps, hps, rfl⟩ := List.mem_map.mp hp
      obtain ⟨kv, hkv, rfl⟩ := List.mem_map.mp hps
      intro hmem
      have : (kv.1 ++ "=" ++ pyQuote kv.2).data = kv.1.data ++ '=' :: (pyQuote kv.2).data := by
        simp
      rw [this] at hmem
      rcases List.mem_append.mp hmem with hin | hin
      · exact (hnames kv hkv '&' hin).2.1 rfl
      · rcases List.mem_cons.mp hin with he | hin
        · cases he
        · exact (pyQuote_no_sep hin).1 rfl
    dsimp only
    rw [splitOnChar_joinChar hpieces (by simp)]
    simp only [Prod.mk.injEq, true_and, List.map_map]
    apply List.map_congr_left
    intro kv hkv
    simp only [Function.comp_apply]
    have hsplit : (kv.1 ++ "=" ++ pyQuote kv.2).data = kv.1.data ++ '=' :: (pyQuote kv.2).data := by
      simp
    rw [hsplit, splitFirstChar_append (fun hc => (hnames kv hkv '=' hc).2.2 rfl)]

/-- C10 witness: the amended round-trip applied at a concrete URL and
header map. -/
theorem c10_witness :
    ("https://e/v" : String) ≠ "" ∧ '|' ∉ ("https://e/v" : String).data ∧
      ((∀ kv ∈ ([("User-Agent", "a b")] : List (String × String)),
          ∀ c ∈ (pyQuote kv.2).data, c ≠ '&' ∧ c ≠ '=' ∧ c ≠ '|') ∧
        ∃ d, kodiStrmContent "https://e/v" [("User-Agent", "a b")] = Except.ok d ∧
          parseDescriptor d =
            ("https://e/v", [("User-Agent", "a b")].map (fun kv => (kv.1, pyQuote kv.2)))) :=
  ⟨by decide, by decide,
    c10_descriptor_roundtrip "https://e/v" [("User-Agent", "a b")] (by decide) (by decide)
      (by decide)⟩

/-! ## C7: joiner round trips (batch and PowerShell share `qTok`) -/

theorem qTok_sawQ_eq_out {q : Char} (cs : List Char) (cur : Option (List Char))
    (h : cs = [] ∨ ∃ d r2, cs = d :: r2 ∧ d ≠ q) :
    qTok q cs QMode.sawQ cur = qTok q cs QMode.out cur := by
  rcases h with rfl | ⟨d, r2, rfl, hd⟩
  · rfl
  · simp only [qTok, if_neg hd]

theorem qTok_out_plain {q : Char} (t : List Char)
    (hplain : ∀ c ∈ t, c ≠ q ∧ pySpace c = false) (rest : List Char) (acc : List Char) :
    qTok q (t ++ rest) QMode.out (some acc) = qTok q rest QMode.out (some (acc ++ t)) := by
  induction t generalizing acc with
  | nil => simp
  | cons c t' ih =>
    obtain ⟨hcq, hcs⟩ := hplain c (by simp)
    have hns : ¬(pySpace c = true) := by simp [hcs]
    show qTok q (c :: (t' ++ rest)) QMode.out (some acc) = _
    simp only [qTok, if_neg hcq, if_neg hns]
    show qTok q (t' ++ rest) QMode.out (some (acc ++ [c])) = _
    rw [ih (fun x hx => hplain x (by simp [hx])) (acc ++ [c])]
    simp

theorem qTok_inQ_dup {q : Char} (t : List Char) (rest : List Char) (acc : List Char) :
    qTok q (dupChar q t ++ q :: rest) QMode.inQ (some acc) =
      qTok q rest QMode.sawQ (some (acc ++ t)) := by
  induction t generalizing acc with
  | nil =>
    show qTok q (q :: rest) QMode.inQ (some acc) = _
    simp only [qTok, if_pos rfl]
    simp
  | cons c t' ih =>
    by_cases hc : c = q
    · subst hc
      show qTok c ((if c = c then [c, c] else [c]) ++ dupChar c t' ++ c :: rest)
          QMode.inQ (some acc) = _
      rw [if_pos rfl]
      show qTok c (c :: c :: (dupChar c t' ++ c :: rest)) QMode.inQ (some acc) = _
      simp only [qTok, if_pos rfl]
      show qTok c (dupChar c t' ++ c :: rest) QMode.inQ (some (acc ++ [c])) = _
      rw [ih (acc ++ [c])]
      simp
    · show qTok q ((if c = q then [q, q] else [c]) ++ dupChar q t' ++ q :: rest)
          QMode.inQ (some acc) = _
      rw [if_neg hc]
      show qTok q (c :: (dupChar q t' ++ q :: rest)) QMode.inQ (some acc) = _
      simp only [qTok, if_neg hc]
      show qTok q (dupChar q t' ++ q :: rest) QMode.inQ (some (acc ++ [c])) = _
      rw [ih (acc ++ [c])]
      simp

theorem qTok_wrap_arg {q : Char} {metaP : Char → Bool}
    (hws : ∀ c, pySpace c = true → metaP c = true)
    (a : String) (ha : q ∈ a.data → a.data.any metaP = true)
    (rest : List Char) (hrest : rest = [] ∨ ∃ d r2, rest = d :: r2 ∧ d ≠ q) :
    qTok q ((wrapQuote q metaP a).data ++ rest) QMode.out none =
      qTok q rest QMode.out (some a.data) := by
  unfold wrapQuote
  by_cases he : a = ""
  · subst he
    rw [if_pos rfl]
    show qTok q (q :: q :: rest) QMode.out none = _
    simp only [qTok, if_pos rfl]
    exact qTok_sawQ_eq_out rest _ hrest
  · rw [if_neg he]
    by_cases hm : a.data.any metaP = true
    · rw [if_pos hm]
      show qTok q (([q] ++ dupChar q a.data ++ [q]) ++ rest) QMode.out none = _
      have : ([q] ++ dupChar q a.data ++ [q]) ++ rest =
          q :: (dupChar q a.data ++ q :: rest) := by simp
      rw [this]
      show qTok q (q :: (dupChar q a.data ++ q :: rest)) QMode.out none = _
      simp only [qTok, if_pos rfl]
      show qTok q (dupChar q a.data ++ q :: rest) QMode.inQ (some []) = _
      rw [qTok_inQ_dup a.data rest []]
      simp only [List.nil_append]
      exact qTok_sawQ_eq_out rest _ hrest
    · rw [if_neg hm]
      have hplain : ∀ c ∈ a.data, c ≠ q ∧ pySpace c = false := by
        intro c hc
        have hcm : ¬(metaP c = true) := fun hcm =>
          hm (List.any_eq_true.mpr ⟨c, hc, hcm⟩)
        refine ⟨fun he2 => hm (ha (he2 ▸ hc)), ?_⟩
        cases hps : pySpace c with
        | false => rfl
        | true => exact absurd (hws c hps) hcm
      match hdata : a.data with
      | [] => exact absurd (by cases a; simp_all) he
      | c :: t =>
        obtain ⟨hcq, hcs⟩ := hplain c (by rw [hdata]; simp)
        have hns : ¬(pySpace c = true) := by simp [hcs]
        show qTok q (c :: (t ++ rest)) QMode.out none = _
        simp only [qTok, if_neg hcq, if_neg hns]
        show qTok q (t ++ rest) QMode.out (some [c]) = _
        rw [qTok_out_plain t (fun x hx => hplain x (by rw [hdata]; simp [hx])) rest [c]]
        rfl

theorem qTok_join_roundtrip {q : Char} {metaP : Char → Bool}
    (hws : ∀ c, pySpace c = true → metaP c = true) (hq : pySpace q = false) :
    ∀ args : List String, (∀ a ∈ args, q ∈ (a : String).data → a.data.any metaP = true) →
      qTok q (joinSep " " (args.map (wrapQuote q metaP))).data QMode.out none = args := by
  intro args hargs
  match args with
  | [] => rfl
  | [a] =>
    show qTok q ((wrapQuote q metaP a).data) QMode.out none = [a]
    have h0 : (wrapQuote q metaP a).data = (wrapQuote q metaP a).data ++ [] := by simp
    rw [h0, qTok_wrap_arg hws a (hargs a (by simp)) [] (Or.inl rfl)]
    rfl
  | a :: b :: t =>
    have hsp : (' ' : Char) ≠ q := fun he => by
      rw [← he] at hq
      exact absurd hq (by decide)
    show qTok q ((wrapQuote q metaP a ++ " " ++
        joinSep " " ((b :: t).map (wrapQuote q metaP))).data) QMode.out none = _
    have hdata : (wrapQuote q metaP a ++ " " ++
        joinSep " " ((b :: t).map (wrapQuote q metaP))).data =
        (wrapQuote q metaP a).data ++
          ' ' :: (joinSep " " ((b :: t).map (wrapQuote q metaP))).data := by
      rw [data_append, data_append]
      simp
    rw [hdata,
      qTok_wrap_arg hws a (hargs a (by simp)) _ (Or.inr ⟨' ', _, rfl, hsp⟩)]
    show qTok q (' ' :: (joinSep " " ((b :: t).map (wrapQuote q metaP))).data)
        QMode.out (some a.data) = _
    simp only [qTok, if_neg hsp, if_pos (by decide : pySpace ' ' = true)]
    rw [qTok_join_roundtrip hws hq (b :: t) (fun x hx => hargs x (by simp [hx]))]

theorem pySpace_batMeta {c : Char} (h : pySpace c = true) : batMetaChar c = true := by
  simp [batMetaChar, h]

theorem pySpace_ps1Meta {c : Char} (h : pySpace c = true) : ps1MetaChar c = true := by
  simp [ps1MetaChar, h]

theorem shSafe_props {c : Char} (h : shSafeChar c = true) :
    c ≠ squote ∧ c ≠ dquote ∧ c ≠ '\\' ∧ pySpace c = false := by
  refine ⟨fun he => absurd h (by subst he; decide),
    fun he => absurd h (by subst he; decide),
    fun he => absurd h (by subst he; decide), ?_⟩
  simp only [shSafeChar, List.mem_cons, List.not_mem_nil, or_false, decide_eq_true_eq] at h
  simp only [pySpace, List.mem_cons, List.not_mem_nil, or_false]
  rw [decide_eq_false_iff_not]
  omega

theorem shTok_norm_safe (t : List Char) (hsafe : ∀ c ∈ t, shSafeChar c = true)
    (rest : List Char) (acc : List Char) :
    shTok (t ++ rest) ShMode.norm (some acc) = shTok rest ShMode.norm (some (acc ++ t)) := by
  induction t generalizing acc with
  | nil => simp
  | cons c t' ih =>
    obtain ⟨h1, h2, h3, h4⟩ := shSafe_props (hsafe c (by simp))
    have hns : ¬(pySpace c = true) := by simp [h4]
    show shTok (c :: (t' ++ rest)) ShMode.norm (some acc) = _
    simp only [shTok, if_neg h1, if_neg h2, if_neg h3, if_neg hns]
    show shTok (t' ++ rest) ShMode.norm (some (acc ++ [c])) = _
    rw [ih (fun x hx => hsafe x (by simp [hx])) (acc ++ [c])]
    simp

theorem shTok_single_inner (s : List Char) (rest : List Char) (acc : List Char) :
    shTok (shQuoteInner s ++ squote :: rest) ShMode.single (some acc) =
      shTok rest ShMode.norm (some (acc ++ s)) := by
  induction s generalizing acc with
  | nil =>
    show shTok (squote :: rest) ShMode.single (some acc) = _
    show shTok rest ShMode.norm (some acc) = _
    simp
  | cons c s' ih =>
    by_cases hc : c = squote
    · subst hc
      show shTok ((squote :: dquote :: squote :: dquote :: squote ::
          shQuoteInner s') ++ squote :: rest) ShMode.single (some acc) = _
      show shTok (dquote :: squote :: dquote :: squote ::
          (shQuoteInner s' ++ squote :: rest)) ShMode.norm (some acc) = _
      show shTok (squote :: dquote :: squote ::
          (shQuoteInner s' ++ squote :: rest)) ShMode.double (some acc) = _
      show shTok (dquote :: squote ::
          (shQuoteInner s' ++ squote :: rest)) ShMode.double (some (acc ++ [squote])) = _
      show shTok (squote ::
          (shQuoteInner s' ++ squote :: rest)) ShMode.norm (some (acc ++ [squote])) = _
      show shTok (shQuoteInner s' ++ squote :: rest) ShMode.single (some (acc ++ [squote])) = _
      rw [ih (acc ++ [squote])]
      simp
    · show shTok ((if c = squote then [squote, dquote, squote, dquote, squote] else [c]) ++
          shQuoteInner s' ++ squote :: rest) ShMode.single (some acc) = _
      rw [if_neg hc]
      show shTok (c :: (shQuoteInner s' ++ squote :: rest)) ShMode.single (some acc) = _
      simp only [shTok, if_neg hc]
      show shTok (shQuoteInner s' ++ squote :: rest) ShMode.single (some (acc ++ [c])) = _
      rw [ih (acc ++ [c])]
      simp

theorem shTok_quote_arg (a : String) (rest : List Char) :
    shTok ((shQuote a).data ++ rest) ShMode.norm none = shTok rest ShMode.norm (some a.data) := by
  unfold shQuote
  by_cases he : a = ""
  · subst he
    rw [if_pos rfl]
    show shTok (squote :: squote :: rest) ShMode.norm none = _
    show shTok (squote :: rest) ShMode.single (some []) = _
    show shTok rest ShMode.norm (some []) = _
    rfl
  · rw [if_neg he]
    by_cases hs : a.data.all shSafeChar = true
    · rw [if_pos hs]
      match hdata : a.data with
      | [] => exact absurd (by cases a; simp_all) he
      | c :: t =>
        obtain ⟨h1, h2, h3, h4⟩ :=
          shSafe_props (List.all_eq_true.mp hs c (by rw [hdata]; simp))
        have hns : ¬(pySpace c = true) := by simp [h4]
        show shTok (c :: (t ++ rest)) ShMode.norm none = _
        simp only [shTok, if_neg h1, if_neg h2, if_neg h3, if_neg hns]
        show shTok (t ++ rest) ShMode.norm (some [c]) = _
        rw [shTok_norm_safe t
          (fun x hx => List.all_eq_true.mp hs x (by rw [hdata]; simp [hx])) rest [c]]
        rfl
    · rw [if_neg hs]
      show shTok (([squote] ++ shQuoteInner a.data ++ [squote]) ++ rest) ShMode.norm none = _
      have hassoc : ([squote] ++ shQuoteInner a.data ++ [squote]) ++ rest =
          squote :: (shQuoteInner a.data ++ squote :: rest) := by simp
      rw [hassoc]
      show shTok (shQuoteInner a.data ++ squote :: rest) ShMode.single (some []) = _
      rw [shTok_single_inner a.data rest []]
      simp

theorem shJoin_roundtrip : ∀ args : List String, shTokenize (shJoin args) = args := by
  intro args
  match args with
  | [] => rfl
  | [a] =>
    show shTok ((shQuote a).data) ShMode.norm none = [a]
    have h0 : (shQuote a).data = (shQuote a).data ++ [] := by simp
    rw [h0, shTok_quote_arg a []]
    rfl
  | a :: b :: t =>
    show shTok ((shQuote a ++ " " ++ joinSep " " ((b :: t).map shQuote)).data)
        ShMode.norm none = _
    have hdata : (shQuote a ++ " " ++ joinSep " " ((b :: t).map shQuote)).data =
        (shQuote a).data ++ ' ' :: (joinSep " " ((b :: t).map shQuote)).data := by
      rw [data_append, data_append]
      simp
    rw [hdata, shTok_quote_arg a _]
    show (String.mk a.data :: shTok (joinSep " " ((b :: t).map shQuote)).data
        ShMode.norm none : List String) = a :: b :: t
    have ih := shJoin_roundtrip (b :: t)
    unfold shTokenize shJoin at ih
    rw [ih]

/-- C7 (counterexample): the batch joiner leaves `a"b` bare (a double quote
is not in its quoting-trigger set), and batch re-tokenization then strips the
quote, so the original vector is not reproduced even though the element
contains only documented characters (letters and an embedded quote). -/
theorem c7_counterexample :
    batTokenize (batJoin [String.mk ['a', dquote, 'b']]) ≠ [String.mk ['a', dquote, 'b']] := by
  decide

/-- C7 (amended): re-tokenizing each joiner's output under its dialect's
quoting rules reproduces the original vector: unconditionally for POSIX
shell, and for batch (resp. PowerShell) provided every element containing a
double (resp. single) quote also contains whitespace or a dialect
metacharacter, so that the joiner actually quotes it — elements with an
embedded space and an embedded quote are covered. -/
theorem c7_joiner_roundtrips :
    (∀ args : List String, shTokenize (shJoin args) = args) ∧
    (∀ args : List String,
      (∀ a ∈ args, dquote ∈ (a : String).data → a.data.any batMetaChar = true) →
      batTokenize (batJoin args) = args) ∧
    (∀ args : List String,
      (∀ a ∈ args, squote ∈ (a : String).data → a.data.any ps1MetaChar = true) →
      ps1Tokenize (ps1Join args) = args) :=
  ⟨shJoin_roundtrip,
    fun args hargs =>
      qTok_join_roundtrip (fun _ h => pySpace_batMeta h) (by decide) args hargs,
    fun args hargs =>
      qTok_join_roundtrip (fun _ h => pySpace_ps1Meta h) (by decide) args hargs⟩

/-- C7 witness: the three round trips applied to a vector whose element has
an embedded space and embedded quotes. -/
theorem c7_witness :
    (∀ a ∈ (["a \"b'c"] : List String), dquote ∈ (a : String).data →
        a.data.any batMetaChar = true) ∧
      batTokenize (batJoin ["a \"b'c"]) = ["a \"b'c"] ∧
      ps1Tokenize (ps1Join ["a \"b'c"]) = ["a \"b'c"] ∧
      shTokenize (shJoin ["a \"b'c"]) = ["a \"b'c"] :=
  ⟨by decide, c7_joiner_roundtrips.2.1 ["a \"b'c"] (by decide),
    c7_joiner_roundtrips.2.2 ["a \"b'c"] (by decide),
    c7_joiner_roundtrips.1 ["a \"b'c"]⟩

/-! ## C5: what the header scan detects -/

theorem takeWhile_append_drop (p : Char → Bool) (l : List Char) :
    l.takeWhile p ++ l.drop (l.takeWhile p).length = l := by
  induction l with
  | nil => rfl
  | cons c t ih =>
    by_cases hp : p c = true
    · simp only [List.takeWhile_cons, if_pos hp, List.length_cons, List.drop_succ_cons,
        List.cons_append]
      rw [ih]
    · simp only [List.takeWhile_cons, if_neg hp, List.length_nil, List.drop_zero,
        List.nil_append]

theorem drop_after_takeWhile {p : Char → Bool} {l : List Char} {x : Char} {r2 : List Char}
    (h : l.drop (l.takeWhile p).length = x :: r2) : p x = false := by
  induction l with
  | nil => simp at h
  | cons c t ih =>
    by_cases hp : p c = true
    · simp only [List.takeWhile_cons, if_pos hp, List.length_cons, List.drop_succ_cons] at h
      exact ih h
    · simp only [List.takeWhile_cons, if_neg hp, List.length_nil, List.drop_zero] at h
      cases h
      simpa using hp

theorem matchFlag_sound {cs r : List Char} (h : matchFlag cs = some r) :
    ∃ f, cs = f ++ r ∧ FlagChars f := by
  match cs with
  | [] => simp [matchFlag] at h
  | [c] => simp [matchFlag] at h
  | c0 :: c :: rest =>
    simp only [matchFlag] at h
    split at h
    · next h0 =>
      subst h0
      split at h
      · next hH =>
        simp only [Option.some.injEq] at h
        subst h
        exact ⟨['-', c], rfl, Or.inl ⟨c, rfl, hH⟩⟩
      · split at h
        · next hdash =>
          subst hdash
          split at h
          · next c1 c2 c3 c4 c5 c6 r' =>
            split at h
            · next hci =>
              simp only [Option.some.injEq] at h
              subst h
              exact ⟨['-', '-', c1, c2, c3, c4, c5, c6], rfl,
                Or.inr ⟨c1, c2, c3, c4, c5, c6, rfl, hci.1, hci.2.1, hci.2.2.1,
                  hci.2.2.2.1, hci.2.2.2.2.1, hci.2.2.2.2.2⟩⟩
            · cases h
          · cases h
        · cases h
    · cases h

theorem matchQuoted_sound {q : Char} {cs g r : List Char}
    (h : matchQuoted q cs = some (g, r)) :
    cs = q :: g ++ q :: r ∧ g ≠ [] ∧ q ∉ g := by
  match cs with
  | [] => simp [matchQuoted] at h
  | c :: rest =>
    simp only [matchQuoted] at h
    split at h
    · next hcq =>
      split at h
      · cases h
      · next hne =>
        split at h
        · next x r2 hdrop =>
          simp only [Option.some.injEq, Prod.mk.injEq] at h
          obtain ⟨rfl, rfl⟩ := h
          have hxq : x = q := by
            have := drop_after_takeWhile hdrop
            simpa [decide_eq_false_iff_not] using this
          have hsplit := takeWhile_append_drop (fun y => decide (y ≠ q)) rest
          rw [hdrop, hxq] at hsplit
          refine ⟨?_, by simpa [List.isEmpty_iff] using hne, ?_⟩
          · conv_lhs => rw [hcq, ← hsplit]
            rfl
          · intro hmem
            have := List.mem_takeWhile_imp hmem
            simp at this
        · cases h
    · cases h

theorem matchValue_sound {cs g r : List Char} (h : matchValue cs = some (g, r)) :
    ValueStart cs g ∧ ∃ x, cs = x ++ r := by
  simp only [matchValue] at h
  split at h
  · next heq =>
    simp only [Option.some.injEq] at h
    subst h
    obtain ⟨hcs, hne, hnm⟩ := matchQuoted_sound heq
    exact ⟨Or.inl ⟨r, hcs, hne, hnm⟩, squote :: g ++ [squote], by rw [hcs]; simp⟩
  · split at h
    · next heq =>
      simp only [Option.some.injEq] at h
      subst h
      obtain ⟨hcs, hne, hnm⟩ := matchQuoted_sound heq
      exact ⟨Or.inr (Or.inl ⟨r, hcs, hne, hnm⟩), dquote :: g ++ [dquote], by rw [hcs]; simp⟩
    · split at h
      · cases h
      · next hne =>
        simp only [Option.some.injEq, Prod.mk.injEq] at h
        obtain ⟨rfl, rfl⟩ := h
        have hsplit := takeWhile_append_drop (fun c => decide (¬ pySpace c = true)) cs
        refine ⟨Or.inr (Or.inr ⟨_, hsplit.symm, by simpa [List.isEmpty_iff] using hne, ?_⟩),
          _, hsplit.symm⟩
        intro c hc
        have := List.mem_takeWhile_imp hc
        simpa using this

theorem tryHeaderMatch_sound {cs g r : List Char} (h : tryHeaderMatch cs = some (g, r)) :
    (∃ x, cs = x ++ r) ∧
      ∃ f w t, cs = f ++ w ++ t ∧ FlagChars f ∧ w ≠ [] ∧
        (∀ c ∈ w, pySpace c = true) ∧ ValueStart t g := by
  simp only [tryHeaderMatch] at h
  split at h
  · cases h
  · next afterFlag heq =>
    split at h
    · cases h
    · next hwne =>
      obtain ⟨f, hf, hflag⟩ := matchFlag_sound heq
      obtain ⟨hvs, x2, hx2⟩ := matchValue_sound h
      have hw := takeWhile_append_drop pySpace afterFlag
      refine ⟨⟨f ++ (afterFlag.takeWhile pySpace ++ x2), ?_⟩,
        f, afterFlag.takeWhile pySpace, afterFlag.drop (afterFlag.takeWhile pySpace).length,
        ?_, hflag, by simpa [List.isEmpty_iff] using hwne,
        fun c hc => List.mem_takeWhile_imp hc, hvs⟩
      · rw [hf]
        conv_lhs => rw [← hw]
        rw [hx2]
        simp [List.append_assoc]
      · rw [hf]
        conv_lhs => rw [← hw]
        simp [List.append_assoc]

theorem scanHeaders_succ (fuel : Nat) (c : Char) (rest : List Char) (b : Bool) :
    scanHeaders (fuel + 1) (c :: rest) b =
      match (if b then tryHeaderMatch (c :: rest) else none) with
      | some (g, r) => g :: scanHeaders fuel r false
      | none =>
        match (if pySpace c then tryHeaderMatch rest else none) with
        | some (g, r) => g :: scanHeaders fuel r false
        | none => scanHeaders fuel rest false := rfl

/-- Soundness of the scan: every captured group comes from a flag occurrence
at the start of the text (when the `^` anchor is still available) or right
after a whitespace character, followed by whitespace and a value of one of
the three shapes. -/
theorem scanHeaders_sound :
    ∀ (fuel : Nat) (cs : List Char) (b : Bool) (g : List Char),
      g ∈ scanHeaders fuel cs b →
      ∃ pre f w t, cs = pre ++ (f ++ w ++ t) ∧
        ((pre = [] ∧ b = true) ∨ ∃ pre' cw, pre = pre' ++ [cw] ∧ pySpace cw = true) ∧
        FlagChars f ∧ w ≠ [] ∧ (∀ c ∈ w, pySpace c = true) ∧ ValueStart t g := by
  intro fuel
  induction fuel with
  | zero =>
    intro cs b g h
    cases cs <;> simp [scanHeaders] at h
  | succ fuel ih =>
    intro cs b g h
    match cs with
    | [] => simp [scanHeaders] at h
    | c :: rest =>
      rw [scanHeaders_succ] at h
      cases hm1 : (if b then tryHeaderMatch (c :: rest) else none) with
      | some gr =>
        obtain ⟨g0, r⟩ := gr
        have hb : b = true := by
          cases b
          · simp at hm1
          · rfl
        subst hb
        rw [if_pos rfl] at hm1
        rw [if_pos rfl, hm1] at h
        dsimp only at h
        rcases List.mem_cons.mp h with rfl | hrec
        · obtain ⟨-, f, w, t, hsplit, hflag, hw, hws, hval⟩ := tryHeaderMatch_sound hm1
          exact ⟨[], f, w, t, by simpa using hsplit, Or.inl ⟨rfl, rfl⟩, hflag, hw, hws, hval⟩
        · obtain ⟨⟨x, hx⟩, -⟩ := tryHeaderMatch_sound hm1
          obtain ⟨pre, f, w, t, hsplit, hb2, hflag, hw, hws, hval⟩ := ih r false g hrec
          rcases hb2 with ⟨-, hfalse⟩ | ⟨pre', cw, rfl, hcw⟩
          · cases hfalse
          · refine ⟨x ++ (pre' ++ [cw]), f, w, t, ?_,
              Or.inr ⟨x ++ pre', cw, by simp, hcw⟩, hflag, hw, hws, hval⟩
            rw [hx, hsplit]
            simp [List.append_assoc]
      | none =>
        rw [hm1] at h
        dsimp only at h
        cases hm2 : (if pySpace c then tryHeaderMatch rest else none) with
        | some gr =>
          obtain ⟨g0, r⟩ := gr
          have hsp : pySpace c = true := by
            cases hps : pySpace c
            · rw [if_neg (by simp [hps])] at hm2
              cases hm2
            · rfl
          rw [hsp, if_pos rfl] at hm2
          rw [hsp, if_pos rfl, hm2] at h
          dsimp only at h
          rcases List.mem_cons.mp h with rfl | hrec
          · obtain ⟨-, f, w, t, hsplit, hflag, hw, hws, hval⟩ := tryHeaderMatch_sound hm2
            exact ⟨[c], f, w, t, by rw [hsplit]; rfl,
              Or.inr ⟨[], c, by simp, hsp⟩, hflag, hw, hws, hval⟩
          · obtain ⟨⟨x, hx⟩, -⟩ := tryHeaderMatch_sound hm2
            obtain ⟨pre, f, w, t, hsplit, hb2, hflag, hw, hws, hval⟩ := ih r false g hrec
            rcases hb2 with ⟨-, hfalse⟩ | ⟨pre', cw, rfl, hcw⟩
            · cases hfalse
            · refine ⟨c :: x ++ (pre' ++ [cw]), f, w, t, ?_,
                Or.inr ⟨c :: x ++ pre', cw, by simp, hcw⟩, hflag, hw, hws, hval⟩
              rw [hx, hsplit]
              simp [List.append_assoc]
        | none =>
          rw [hm2] at h
          dsimp only at h
          obtain ⟨pre, f, w, t, hsplit, hb2, hflag, hw, hws, hval⟩ := ih rest false g h
          rcases hb2 with ⟨-, hfalse⟩ | ⟨pre', cw, rfl, hcw⟩
          · cases hfalse
          · exact ⟨c :: (pre' ++ [cw]), f, w, t, by rw [hsplit]; rfl,
              Or.inr ⟨c :: pre', cw, by simp, hcw⟩, hflag, hw, hws, hval⟩

theorem mem_dictInsert {m : List (String × String)} {k v : String} {p : String × String}
    (h : p ∈ dictInsert m k v) : p ∈ m ∨ p = (k, v) := by
  unfold dictInsert at h
  split at h
  · obtain ⟨x, hx, he⟩ := List.mem_map.mp h
    by_cases hxk : x.1 = k
    · rw [if_pos hxk] at he
      right
      exact he.symm
    · rw [if_neg hxk] at he
      left
      exact he ▸ hx
  · rcases List.mem_append.mp h with h | h
    · left
      exact h
    · right
      simpa using h

theorem mem_buildHeaders {allow : List String} {incl : Bool}
    {pairs : List (String × String)} {k v : String}
    (h : (k, v) ∈ buildHeaders allow incl pairs) :
    ∃ kv ∈ pairs, kv = (k, v) ∧ (incl || allow.contains (pyLower k)) = true := by
  suffices H : ∀ ps m : List (String × String),
      (k, v) ∈ ps.foldl (fun m kv =>
        if incl || allow.contains (pyLower kv.1) then dictInsert m kv.1 kv.2 else m) m →
      (k, v) ∈ m ∨ ∃ kv ∈ ps, kv = (k, v) ∧ (incl || allow.contains (pyLower k)) = true by
    rcases H pairs [] h with h0 | h0
    · simp at h0
    · exact h0
  intro ps
  induction ps with
  | nil =>
    intro m hm
    left
    exact hm
  | cons kv t ih =>
    intro m hm
    simp only [List.foldl_cons] at hm
    rcases ih _ hm with h0 | ⟨kv2, hkv2, he, hp⟩
    · revert h0
      split
      · next hkeep =>
        intro h0
        rcases mem_dictInsert h0 with h1 | h1
        · left
          exact h1
        · right
          refine ⟨kv, by simp, ?_, ?_⟩
          · rw [Prod.ext_iff] at h1 ⊢
            exact ⟨h1.1.symm, h1.2.symm⟩
          · have hk : kv.1 = k := by
              rw [Prod.ext_iff] at h1
              exact h1.1.symm
            rw [← hk]
            exact hkeep
      · intro h0
        left
        exact h0
    · right
      exact ⟨kv2, by simp [hkv2], he, hp⟩

theorem mem_headerPairs {raws : List String} {k v : String}
    (h : (k, v) ∈ headerPairs raws) :
    ∃ raw ∈ raws, ∃ kd vd, splitFirstChar ':' raw.data = (kd, some vd) ∧
      k = pyStrip (String.mk kd) ∧ v = pyStrip (String.mk vd) := by
  unfold headerPairs at h
  obtain ⟨raw, hraw, hmap⟩ := List.mem_filterMap.mp h
  refine ⟨raw, hraw, ?_⟩
  revert hmap
  match hsp : splitFirstChar ':' raw.data with
  | (kd, none) => intro hmap; cases hmap
  | (kd, some vd) =>
    intro hmap
    simp only [Option.some.injEq, Prod.mk.injEq] at hmap
    exact ⟨kd, vd, rfl, hmap.1.symm, hmap.2.symm⟩

/-- C5 (counterexample): a flag occurrence not preceded by start-of-text or
whitespace is not detected, so the extractor does not find "every occurrence
of `-H` followed by whitespace and a value": in `x-H a:b` the flag at index 1
is followed by whitespace and the colon-containing value `a:b`, yet even with
include-all filtering no entry results — while the same occurrence preceded
by a space is detected. -/
theorem c5_counterexample :
    (parseCurl "x-H a:b" none true).2 = [] ∧
      (parseCurl " -H a:b" none true).2 = [("a", "b")] :=
  ⟨by decide, by decide⟩

/-- C5 (amended): detection is a single left-to-right non-overlapping
regex scan, so the guarantee is soundness: every header entry the extractor
produces arises from an occurrence of `-H` or `--header` (case-insensitive)
at the start of the text or immediately after a whitespace character,
followed by whitespace and a single-quoted, double-quoted or unquoted
whitespace-free value; the entry is that value split at its first colon with
both parts stripped, and it passed the filtering policy.  (Occurrences
lacking such a boundary, or lying inside text consumed by an earlier match,
are not detected, as the counterexample shows.) -/
theorem c5_detection_sound (s : String) (allowed : Option (List String)) (incl : Bool)
    (k v : String) (hmem : (k, v) ∈ (parseCurl s allowed incl).2) :
    ∃ g, HeaderOccurrenceAt s.data g ∧
      (∃ kd vd, splitFirstChar ':' g = (kd, some vd) ∧
        k = pyStrip (String.mk kd) ∧ v = pyStrip (String.mk vd)) ∧
      (incl || (allowSet allowed).contains (pyLower k)) = true := by
  obtain ⟨kv, hkv, rfl, hpol⟩ := mem_buildHeaders hmem
  obtain ⟨raw, hraw, kd, vd, hsp, hk, hv⟩ := mem_headerPairs hkv
  unfold headerMatches at hraw
  obtain ⟨g, hg, rfl⟩ := List.mem_map.mp hraw
  obtain ⟨pre, f, w, t, hsplit, hb, hflag, hwne, hws, hval⟩ :=
    scanHeaders_sound _ _ _ _ hg
  refine ⟨g, ⟨pre, f, w, t, by rw [hsplit]; simp [List.append_assoc], ?_,
    hflag, hwne, hws, hval⟩, ⟨kd, vd, hsp, hk, hv⟩, hpol⟩
  rcases hb with ⟨hpre, -⟩ | hb
  · exact Or.inl hpre
  · exact Or.inr hb

/-- C5 witness: the soundness of detection applied at a concrete command. -/
theorem c5_witness :
    ("User-Agent", "x") ∈ (parseCurl "curl -H 'User-Agent: x'" none false).2 ∧
      (∃ g, HeaderOccurrenceAt ("curl -H 'User-Agent: x'" : String).data g ∧
        (∃ kd vd, splitFirstChar ':' g = (kd, some vd) ∧
          "User-Agent" = pyStrip (String.mk kd) ∧ "x" = pyStrip (String.mk vd)) ∧
        (false || (allowSet none).contains (pyLower "User-Agent")) = true) :=
  ⟨by decide,
    c5_detection_sound "curl -H 'User-Agent: x'" none false "User-Agent" "x" (by decide)⟩

end CurlToKodi
